import Mathlib

/-!
Verification of the Kursziel extractor (src/kursziel_extractor.py).

This file shallowly embeds the repository's table-selection heuristic, the
numeric normalizer, and the batch runner, and proves the specification
claims about them.

Modelling conventions:
* Python strings are Lean `String`s; where character-level reasoning is
  needed we work on `List Char` (the `data` of a string).
* Numeric values are modelled exactly as rationals; the rounding of a
  decimal numeral to a binary64 float by Python's float constructor is
  abstracted away (all values in play are short exact decimals).
* Python's float constructor also accepts the words inf, infinity and nan;
  those values lie outside the rational model and are mapped to `none`.
  Whitespace means ASCII whitespace throughout.
* Fallible operations return `Option`; a raised-and-caught exception is
  `none`.
-/

namespace Aktien

/-- Fuel-indexed scanning loop of str.replace; each step consumes at least
one character, so fuel equal to the list length is always enough and the
out-of-fuel branch is unreachable from `replList`. -/
def replAux (pat rep : List Char) : Nat → List Char → List Char
  | 0, l => l
  | _ + 1, [] => []
  | fuel + 1, c :: rest =>
    if pat ≠ [] ∧ pat.isPrefixOf (c :: rest) then
      rep ++ replAux pat rep fuel ((c :: rest).drop pat.length)
    else
      c :: replAux pat rep fuel rest

/-- Python's str.replace for a non-empty pattern, on character lists:
replace every non-overlapping occurrence of `pat`, scanning left to right,
by `rep`; the replacement text itself is not rescanned. -/
def replList (pat rep l : List Char) : List Char :=
  replAux pat rep l.length l

/-- Python's str.replace with the empty pattern inserts the replacement
before every character and at the end. -/
def replEmpty (rep : List Char) : List Char → List Char
  | [] => rep
  | c :: rest => rep ++ c :: replEmpty rep rest

/-- Python's str.replace on strings. -/
def pyReplace (s pat rep : String) : String :=
  if pat.data = [] then ⟨replEmpty rep.data s.data⟩
  else ⟨replList pat.data rep.data s.data⟩

/-- Python's substring test (the in operator on strings): does `s`
contain `sub` as a contiguous substring? -/
def infixOf (pat : List Char) : List Char → Bool
  | [] => pat.isEmpty
  | c :: rest => pat.isPrefixOf (c :: rest) || infixOf pat rest

/-- The in operator on strings: `pyIn sub s` is true when `sub` occurs in `s`. -/
def pyIn (sub s : String) : Bool :=
  infixOf sub.data s.data

/-- The exact rational value of a signed decimal-scientific numeral:
the sign applied to mantissa times ten to the (integer) exponent. Built
with mkRat and integer arithmetic only, so that concrete runs reduce
inside the kernel. -/
def decValue (neg : Bool) (m : Nat) (z : Int) : ℚ :=
  let n : Int := if neg then -(m : Int) else (m : Int)
  if 0 ≤ z then mkRat (n * ((10 ^ z.toNat : Nat) : Int)) 1
  else mkRat n (10 ^ (-z).toNat)

/-- Fuel-indexed digit-run scanner; each step consumes at least one
character, so fuel equal to the list length is always enough. -/
def digitsAux : Nat → List Char → Nat → Nat → Nat × Nat × List Char
  | 0, l, acc, n => (acc, n, l)
  | _ + 1, [], acc, n => (acc, n, [])
  | fuel + 1, c :: rest, acc, n =>
    if c.isDigit then
      digitsAux fuel rest (acc * 10 + (c.toNat - 48)) (n + 1)
    else if c = '_' ∧ n ≠ 0 then
      match rest with
      | [] => (acc, n, [c])
      | d :: rest2 =>
        if d.isDigit then digitsAux fuel rest2 (acc * 10 + (d.toNat - 48)) (n + 1)
        else (acc, n, c :: d :: rest2)
    else (acc, n, c :: rest)

/-- Consume a maximal run of decimal digits in which single underscores may
occur strictly between digits (CPython's numeric-literal relaxation for
float parsing). Returns the value of the digits, the number of digits
consumed, and the unconsumed remainder. -/
def digitsCore (l : List Char) (acc n : Nat) : Nat × Nat × List Char :=
  digitsAux l.length l acc n

/-- Read an optional exponent part: either nothing (exponent 0) or an
e/E followed by an optional sign and a nonempty digit run. Returns the
exponent sign (true means negative), its magnitude and the remainder;
`none` when an e/E is present but not followed by digits. -/
def readExp : List Char → Option (Bool × Nat × List Char)
  | [] => some (false, 0, [])
  | c :: rest =>
    if c = 'e' ∨ c = 'E' then
      let p : Bool × List Char :=
        match rest with
        | '+' :: r => (false, r)
        | '-' :: r => (true, r)
        | _ => (false, rest)
      let d := digitsCore p.2 0 0
      if d.2.1 = 0 then none else some (p.1, d.1, d.2.2)
    else some (false, 0, c :: rest)

/-- Read an unsigned float numeral: digits with an optional fractional
part (at least one digit overall) and an optional exponent. Returns the
numeral's mantissa, its net decimal exponent (the written exponent minus
the number of fractional digits) and the remainder. -/
def readNumber (l : List Char) : Option (Nat × Int × List Char) :=
  let i := digitsCore l 0 0
  match i.2.2 with
  | '.' :: r2 =>
    let f := digitsCore r2 0 0
    if i.2.1 = 0 ∧ f.2.1 = 0 then none
    else
      match readExp f.2.2 with
      | none => none
      | some (neg, e, r4) =>
        some (i.1 * 10 ^ f.2.1 + f.1,
          (if neg then -(e : Int) else (e : Int)) - (f.2.1 : Int), r4)
  | _ =>
    if i.2.1 = 0 then none
    else
      match readExp i.2.2 with
      | none => none
      | some (neg, e, r4) =>
        some (i.1, if neg then -(e : Int) else (e : Int), r4)

/-- Python's float constructor on a character list: optional surrounding
whitespace, an optional sign, then a float numeral. Yields the exact
rational value of the numeral, or `none` when the text does not parse
(Python would raise ValueError there; the inf/infinity/nan forms are
outside this model and also yield `none`). -/
def pyFloat (l : List Char) : Option ℚ :=
  let l1 := l.dropWhile Char.isWhitespace
  let p : Bool × List Char :=
    match l1 with
    | '+' :: r => (false, r)
    | '-' :: r => (true, r)
    | _ => (false, l1)
  match readNumber p.2 with
  | none => none
  | some (m, z, rest) =>
    if rest.all Char.isWhitespace then some (decValue p.1 m z) else none

/-- The character transformation inside parse_kursziel (source lines
76-80): drop the currency markers and spaces, delete every dot, then turn
every comma into a dot. -/
def normChars (l : List Char) : List Char :=
  let stripped :=
    replList " ".data []
      (replList "USD".data []
        (replList "EUR".data []
          (replList "€".data [] l)))
  replList ",".data ".".data (replList ".".data [] stripped)

/-- The numeric normalizer parse_kursziel (source lines 72-84): an absent
cell stays absent; otherwise the text is transformed by `normChars` and
parsed as a float, with a parse failure mapped to absent. -/
def parse_kursziel : Option String → Option ℚ
  | none => none
  | some s => pyFloat (normChars s.data)

/-- Modelled from the spec: the normalization rule as the specification
words it. Strip the currency markers and all whitespace, remove every
dot (thousands separator), replace every comma by a dot (decimal
separator), and parse the result as a float. The spec fixes no order
among the stripped markers; they are removed in the source's order. -/
def spec_normalize (s : String) : Option ℚ :=
  let noCur :=
    replList "USD".data []
      (replList "EUR".data []
        (replList "€".data [] s.data))
  let noWs := noCur.filter (fun c => !c.isWhitespace)
  let noDots := noWs.filter (fun c => c != '.')
  let dec := noDots.map (fun c => if c = ',' then '.' else c)
  pyFloat dec

/-- The output file name derivation in main (source line 191): replace
occurrences of .xlsx and then of .xls by the suffixed name. -/
def derive_output_path (p : String) : String :=
  pyReplace (pyReplace p ".xlsx" "_kursziele.xlsx") ".xls" "_kursziele.xlsx"

/-- Python's str.strip: remove leading and trailing whitespace. -/
def pyStrip (s : String) : String :=
  ⟨((s.data.dropWhile Char.isWhitespace).reverse.dropWhile Char.isWhitespace).reverse⟩

/-- Python's str.lower (on the ASCII letters appearing in this data). -/
def pyLower (s : String) : String :=
  ⟨s.data.map Char.toLower⟩

/-! The table model. pd.read_html and BeautifulSoup are external
collaborators; per the spec's data model a table is a grid of text cells
with a header row taken from an explicit header section when present and
from a first row of header-type cells otherwise. -/

/-- A table cell: `none` is an empty or NA cell, `some s` its text. -/
abbrev Cell := Option String

/-- One HTML table of a fetched page: the cell texts of an explicit thead
section when one exists, whether the first body row uses header-type (th)
cells, and the body rows. -/
structure RawTable where
  thead : Option (List String)
  firstRowTh : Bool
  body : List (List Cell)
deriving DecidableEq

/-- The text of a cell (an empty or NA cell reads as empty text). -/
def cellText (c : Cell) : String := c.getD ""

/-- The header texts the selector computes (source lines 44-53): from the
explicit header section when present, else from the first row; cell text
stripped and lower-cased; `none` when the table has neither a header
section nor any row (the selector then skips the table). -/
def headersText (t : RawTable) : Option (List String) :=
  match t.thead with
  | some h => some (h.map (fun s => pyLower (pyStrip s)))
  | none =>
    match t.body with
    | [] => none
    | r :: _ => some (r.map (fun c => pyLower (pyStrip (cellText c))))

/-- Does any computed header entry contain the keyword (source line 56)? -/
def hasKursziel (t : RawTable) : Bool :=
  match headersText t with
  | none => false
  | some hs => hs.any (fun h => pyIn "kursziel" h)

/-- Pad or cut a parsed data row to the header width; the table parser
aligns ragged rows, missing cells becoming NA. -/
def padRow (n : Nat) (r : List Cell) : List Cell :=
  r.take n ++ List.replicate (n - r.length) none

/-- A parsed table: ordered column names and data rows. -/
structure ParsedTable where
  headers : List String
  rows : List (List Cell)
deriving DecidableEq

/-- The combined effect of pd.read_html on one table's markup followed by
the stripping of the column names (source lines 58-61 and 93-94): columns
come from the explicit header section when present, else from a first row
of header-type cells; data rows are the remaining rows padded to the
header width. A table with neither (no rows at all, or a plain first row
of td cells) parses without named columns, so the column-strip line
raises; both callers catch this: `none`. Pandas' renaming of duplicate
column names and its whitespace collapsing inside cell texts are not
modelled. -/
def readTable (t : RawTable) : Option ParsedTable :=
  match t.thead with
  | some h =>
    let hs := h.map pyStrip
    some ⟨hs, t.body.map (padRow hs.length)⟩
  | none =>
    if t.firstRowTh then
      match t.body with
      | [] => none
      | r :: rs =>
        let hs := r.map (fun c => pyStrip (cellText c))
        some ⟨hs, rs.map (padRow hs.length)⟩
    else none

/-- A value in an extracted table: NA, text, or a normalized number. -/
inductive Val where
  | na : Val
  | str : String → Val
  | num : ℚ → Val
deriving DecidableEq

/-- An extracted table after numeric processing. -/
structure OutTable where
  headers : List String
  rows : List (List Val)
deriving DecidableEq

/-- A parsed cell as a value. -/
def toVal : Cell → Val
  | none => Val.na
  | some s => Val.str s

/-- One application of the normalizer to a cell (source line 86): the
parsed number when normalization succeeds, NA otherwise. -/
def normCell (c : Cell) : Val :=
  match parse_kursziel c with
  | none => Val.na
  | some q => Val.num q

/-- Normalize the matched column of every data row (source line 86),
leaving every other column as parsed. -/
def normalizeAt (j : Nat) (t : ParsedTable) : OutTable :=
  ⟨t.headers, t.rows.map (fun r => r.mapIdx (fun i c => if i = j then normCell c else toVal c))⟩

/-- A parsed table with every column left raw (the fallback path,
source lines 90-96). -/
def rawOut (t : ParsedTable) : OutTable :=
  ⟨t.headers, t.rows.map (fun r => r.map toVal)⟩

/-- The matched column (source lines 63-68): the first stripped column
name containing the keyword, case-insensitively, as an index. -/
def kwIdx (hs : List String) : Option Nat :=
  hs.findIdx? (fun h => pyIn "kursziel" (pyLower h))

/-- Result of the selector's scan over the page's tables. -/
inductive ScanResult where
  | found : OutTable → ScanResult
  | error : ScanResult
  | exhausted : ScanResult
deriving DecidableEq

/-- The scan loop of the selector (source lines 42-88): the first table
whose computed header text mentions the keyword is parsed and its matched
column normalized; a parsing failure there escapes to the function's
outer handler (error); a table with no header text, or one whose parsed
columns contain no keyword match after all, is passed over. -/
def scanTables : List RawTable → ScanResult
  | [] => ScanResult.exhausted
  | t :: ts =>
    if hasKursziel t then
      match readTable t with
      | none => ScanResult.error
      | some df =>
        match kwIdx df.headers with
        | some j => ScanResult.found (normalizeAt j df)
        | none => scanTables ts
    else scanTables ts

/-- The table selector get_kursziele_table (source lines 14-107), given
the list of tables found on the fetched page: no tables yields nothing; a
keyword-matching table wins, its matched column normalized; otherwise the
first table of the page is returned raw when it parses, and nothing when
it does not. An exception while extracting the matching table is caught
by the outer handler and also yields nothing. -/
def get_kursziele_table (tables : List RawTable) : Option OutTable :=
  if tables.isEmpty then none
  else
    match scanTables tables with
    | ScanResult.found df => some df
    | ScanResult.error => none
    | ScanResult.exhausted =>
      match tables with
      | [] => none
      | t :: _ =>
        match readTable t with
        | none => none
        | some df => some (rawOut df)

/-! Helper lemmas about the replace loop. -/

/-- Replacing by the empty text only deletes characters: every character
of the output already occurs in the input. -/
theorem mem_of_mem_replAux_nil (pat : List Char) :
    ∀ (fuel : Nat) (l : List Char) (c : Char), c ∈ replAux pat [] fuel l → c ∈ l := by
  intro fuel
  induction fuel with
  | zero => intro l c h; rw [replAux] at h; exact h
  | succ n ih =>
    intro l c h
    cases l with
    | nil => rw [replAux] at h; exact absurd h (List.not_mem_nil c)
    | cons a rest =>
      rw [replAux] at h
      by_cases hc : pat ≠ [] ∧ pat.isPrefixOf (a :: rest)
      · rw [if_pos hc] at h
        simp only [List.nil_append] at h
        exact (List.drop_suffix pat.length (a :: rest)).subset (ih _ _ h)
      · rw [if_neg hc] at h
        rcases List.mem_cons.mp h with h1 | h1
        · exact h1 ▸ List.mem_cons_self a rest
        · exact List.mem_cons_of_mem a (ih _ _ h1)

theorem mem_of_mem_replList_nil (pat l : List Char) (c : Char)
    (h : c ∈ replList pat [] l) : c ∈ l :=
  mem_of_mem_replAux_nil pat l.length l c h

/-- With a one-character pattern and empty replacement, the replace loop
is a filter. -/
theorem replAux_singleton_nil (a : Char) :
    ∀ (fuel : Nat) (l : List Char), l.length ≤ fuel →
      replAux [a] [] fuel l = l.filter (fun c => c != a) := by
  intro fuel
  induction fuel with
  | zero =>
    intro l hl
    interval_cases h : l.length
    · rw [List.length_eq_zero] at h; simp [h, replAux]
  | succ n ih =>
    intro l hl
    cases l with
    | nil => simp [replAux]
    | cons c rest =>
      rw [replAux]
      by_cases hc : c = a
      · rw [if_pos (by simp [hc, List.isPrefixOf])]
        simp only [List.length_cons] at hl
        simp [hc, List.filter_cons, ih rest (by omega)]
      · rw [if_neg (by simp [List.isPrefixOf]; exact fun h => hc h.symm)]
        simp only [List.length_cons] at hl
        simp [List.filter_cons, hc, ih rest (by omega)]

/-- With a one-character pattern and a one-character replacement, the
replace loop is a map. -/
theorem replAux_singleton_map (a b : Char) :
    ∀ (fuel : Nat) (l : List Char), l.length ≤ fuel →
      replAux [a] [b] fuel l = l.map (fun c => if c = a then b else c) := by
  intro fuel
  induction fuel with
  | zero =>
    intro l hl
    interval_cases h : l.length
    · rw [List.length_eq_zero] at h; simp [h, replAux]
  | succ n ih =>
    intro l hl
    cases l with
    | nil => simp [replAux]
    | cons c rest =>
      rw [replAux]
      by_cases hc : c = a
      · rw [if_pos (by simp [hc, List.isPrefixOf])]
        simp only [List.length_cons] at hl
        simp [hc, ih rest (by omega)]
      · rw [if_neg (by simp [List.isPrefixOf]; exact fun h => hc h.symm)]
        simp only [List.length_cons] at hl
        simp [hc, ih rest (by omega)]

theorem replList_space (l : List Char) :
    replList [' '] [] l = l.filter (fun c => c != ' ') :=
  replAux_singleton_nil ' ' l.length l le_rfl

theorem replList_dot (l : List Char) :
    replList ['.'] [] l = l.filter (fun c => c != '.') :=
  replAux_singleton_nil '.' l.length l le_rfl

theorem replList_comma (l : List Char) :
    replList [','] ['.'] l = l.map (fun c => if c = ',' then '.' else c) :=
  replAux_singleton_map ',' '.' l.length l le_rfl

/-! Claims C1, C2 and C8. -/

/-- C1, counterexample: as stated the claim is false on the code. The
input 1234.56 USD does not normalize to 1234.56: the dot is removed
unconditionally as a thousands separator, so the result is 123456. -/
theorem parse_kursziel_usd_counterexample :
    parse_kursziel (some "1234.56 USD") = some 123456 ∧ (123456 : ℚ) ≠ 1234.56 := by
  constructor
  · have h : parse_kursziel (some "1234.56 USD") = some (mkRat 123456 1) := by decide
    rw [h, Rat.mkRat_one]
    norm_num
  · norm_num

/-- C1 (amended): the normalizer agrees with the spec's normalization rule
(strip whitespace and the currency markers, delete dots, comma to dot,
parse as float) on every string whose whitespace consists of ordinary
spaces, and the listed examples evaluate as the European-format rule
dictates, except that 1234.56 USD yields 123456, its dot being removed
as a thousands separator. -/
theorem parse_kursziel_matches_spec :
    (∀ s : String, (∀ c ∈ s.data, c.isWhitespace → c = ' ') →
      parse_kursziel (some s) = spec_normalize s)
    ∧ parse_kursziel (some "1.234,56") = some (1234.56 : ℚ)
    ∧ parse_kursziel (some "1234,56") = some (1234.56 : ℚ)
    ∧ parse_kursziel (some "1.234,56 €") = some (1234.56 : ℚ)
    ∧ parse_kursziel (some "1234.56 USD") = some (123456 : ℚ)
    ∧ parse_kursziel (some "1,234") = some (1.234 : ℚ) := by
  refine ⟨?_, ?_, ?_, ?_, ?_, ?_⟩
  · intro s hs
    show pyFloat (normChars s.data) = spec_normalize s
    unfold normChars spec_normalize
    have hu : ∀ c ∈ replList "USD".data []
        (replList "EUR".data [] (replList "€".data [] s.data)),
        c.isWhitespace → c = ' ' := by
      intro c hc hw
      exact hs c (mem_of_mem_replList_nil _ _ _
        (mem_of_mem_replList_nil _ _ _ (mem_of_mem_replList_nil _ _ _ hc))) hw
    simp only [replList_space, replList_dot, replList_comma]
    congr 2
    congr 1
    refine List.filter_congr ?_
    intro a ha
    by_cases h1 : a = ' '
    · subst h1; decide
    · have h2 : a.isWhitespace = false := by
        by_contra h3
        exact h1 (hu a ha (by revert h3; cases a.isWhitespace <;> simp))
      simp [h2, h1]
  · have h : parse_kursziel (some "1.234,56") = some (mkRat 123456 100) := by decide
    rw [h, show (mkRat 123456 100 : ℚ) = 1234.56 by
      norm_num [Rat.mkRat_eq_divInt, Rat.divInt_eq_div]]
  · have h : parse_kursziel (some "1234,56") = some (mkRat 123456 100) := by decide
    rw [h, show (mkRat 123456 100 : ℚ) = 1234.56 by
      norm_num [Rat.mkRat_eq_divInt, Rat.divInt_eq_div]]
  · have h : parse_kursziel (some "1.234,56 €") = some (mkRat 123456 100) := by decide
    rw [h, show (mkRat 123456 100 : ℚ) = 1234.56 by
      norm_num [Rat.mkRat_eq_divInt, Rat.divInt_eq_div]]
  · have h : parse_kursziel (some "1234.56 USD") = some (mkRat 123456 1) := by decide
    rw [h, Rat.mkRat_one]
    norm_num
  · have h : parse_kursziel (some "1,234") = some (mkRat 1234 1000) := by decide
    rw [h, show (mkRat 1234 1000 : ℚ) = 1.234 by
      norm_num [Rat.mkRat_eq_divInt, Rat.divInt_eq_div]]

/-- C1, witness for the amended claim's universal part: a concrete input
at which the code's normalizer and the spec's rule visibly coincide. -/
theorem parse_kursziel_matches_spec_witness :
    parse_kursziel (some "12,5 €") = spec_normalize "12,5 €" :=
  parse_kursziel_matches_spec.1 "12,5 €" (by decide)

/-- C2: the normalizer is total and never raises: an absent input yields
absent, the empty string and non-numeric text yield absent, and whenever
the transformed text fails to parse as a float the result is absent
rather than an error (failure is a value of the Option result, by
construction of the embedding). -/
theorem parse_kursziel_never_raises :
    parse_kursziel none = none
    ∧ parse_kursziel (some "") = none
    ∧ parse_kursziel (some "n/a") = none
    ∧ (∀ s : String, pyFloat (normChars s.data) = none →
        parse_kursziel (some s) = none) := by
  refine ⟨rfl, by decide, by decide, ?_⟩
  intro s h
  exact h

/-- C2, witness: the parse-failure clause applied at a concrete
non-numeric input. -/
theorem parse_kursziel_never_raises_witness :
    parse_kursziel (some "kein Kursziel") = none :=
  parse_kursziel_never_raises.2.2.2 "kein Kursziel" (by decide)

/-- C8: evaluating the output-path derivation. On a .xlsx input the code
does not append the suffix once before the extension: the second replace
rewrites the .xls occurring inside the already-inserted .xlsx suffix,
yielding foo_kursziele_kursziele.xlsxx. On a .xls input the intended name
appears; on any other extension the path is returned unchanged, equal to
the input path. -/
theorem derive_output_path_eval :
    derive_output_path "foo.xlsx" = "foo_kursziele_kursziele.xlsxx"
    ∧ derive_output_path "foo.xls" = "foo_kursziele.xlsx"
    ∧ derive_output_path "foo.csv" = "foo.csv" := by
  refine ⟨by decide, by decide, by decide⟩

/-! The batch runner (source lines 110-171). -/

/-- Python's str() of a cell value. The code only stringifies non-NA url
cells, which are text in every modelled path; a numeric cell is
abstracted by the rational's canonical print. -/
def pyStr : Val → String
  | Val.na => "nan"
  | Val.str s => s
  | Val.num q => toString q

/-- The position of a column label: pandas label access takes the first
matching column. -/
def colIdx (cols : List String) (c : String) : Option Nat :=
  cols.findIdx? (fun x => x == c)

/-- The cell of a row at a position; a missing cell reads as NA. -/
def cellVal (r : List Val) (i : Nat) : Val :=
  r.getD i Val.na

/-- The label-indexed value of an input row (row[col]). -/
def rowVal (cols : List String) (row : List Val) (c : String) : Val :=
  match colIdx cols c with
  | some i => cellVal row i
  | none => Val.na

/-- Pad or cut an input row to the sheet's column count, as the
spreadsheet reader aligns rows. -/
def padVals (n : Nat) (r : List Val) : List Val :=
  r.take n ++ List.replicate (n - r.length) Val.na

/-- Pandas column assignment with a broadcast scalar (source lines
146-150): overwrite every column named c in place when one exists, else
append a new column of that name at the right, the value repeated in
every row. -/
def setCol (t : OutTable) (c : String) (v : Val) : OutTable :=
  if c ∈ t.headers then
    ⟨t.headers, t.rows.map (fun r => r.mapIdx (fun i x => if t.headers[i]? = some c then v else x))⟩
  else
    ⟨t.headers ++ [c], t.rows.map (fun r => r ++ [v])⟩

/-- The per-row augmentation (source lines 146-150): tag the extracted
table with Source_URL = url, then copy every non-address input column
into it, in sheet order, overwriting same-named columns. -/
def augmentTable (cols : List String) (urlCol : String) (row : List Val)
    (url : String) (t : OutTable) : OutTable :=
  cols.foldl
    (fun acc c => if c = urlCol then acc else setCol acc c (rowVal cols row c))
    (setCol t "Source_URL" (Val.str url))

/-- The selector applied to a fetched page (source lines 24-35, 102-107):
the network is a parameter assigning to a url the tables of its page, or
none for a fetch failure, which the outer handler turns into no table. -/
def get_kursziele_table_url (fetch : String → Option (List RawTable))
    (url : String) : Option OutTable :=
  match fetch url with
  | none => none
  | some tables => get_kursziele_table tables

/-- The url of a cleaned input row. -/
def urlOf (i : Nat) (r : List Val) : String :=
  match cellVal r i with
  | Val.str s => s
  | _ => ""

/-- One iteration of the batch loop (source lines 142-155): fetch and
extract; a row whose page yields no table, or a table with zero data
rows, contributes nothing; otherwise the row's table is augmented with
its source url and the row's other columns. -/
def rowStep (fetch : String → Option (List RawTable)) (cols : List String)
    (urlCol : String) (i : Nat) (r : List Val) : Option OutTable :=
  match get_kursziele_table_url fetch (urlOf i r) with
  | none => none
  | some t =>
    if 0 < t.rows.length then some (augmentTable cols urlCol r (urlOf i r) t)
    else none

/-- The collection loop (source lines 137-155): successful rows append
their augmented tables in order, and each success is followed by one
fixed pause; the second component counts the pauses taken. -/
def collect (fetch : String → Option (List RawTable)) (cols : List String)
    (urlCol : String) (i : Nat) (rows : List (List Val)) : List OutTable × Nat :=
  rows.foldl
    (fun acc r =>
      match rowStep fetch cols urlCol i r with
      | some t => (acc.1 ++ [t], acc.2 + 1)
      | none => acc)
    ([], 0)

/-- The url-column cleaning (source lines 130-132): drop rows whose url
cell is absent, stringify and strip the url cells, then drop rows whose
url is empty. -/
def cleanRows (i : Nat) (rows : List (List Val)) : List (List Val) :=
  ((rows.filter (fun r => cellVal r i != Val.na)).map
      (fun r => r.set i (Val.str (pyStrip (pyStr (cellVal r i)))))).filter
    (fun r => cellVal r i != Val.str "")

/-- The effect of the cleaning on one row: dropped for an absent url,
dropped for an empty stripped url, kept with the url cell rewritten
otherwise. -/
def rowClean (i : Nat) (r : List Val) : Option (List Val) :=
  if cellVal r i = Val.na then none
  else
    let r2 := r.set i (Val.str (pyStrip (pyStr (cellVal r i))))
    if cellVal r2 i = Val.str "" then none else some r2

/-- The input spreadsheet as the batch runner sees it: a missing file
(FileNotFoundError on read) or a sheet with column names and rows. -/
inductive ExcelInput where
  | missing : ExcelInput
  | sheet : List String → List (List Val) → ExcelInput

/-- The rows of a table as ordered mappings from column name to value. -/
def tableRows (t : OutTable) : List (List (String × Val)) :=
  t.rows.map (fun r => t.headers.zip r)

/-- The batch runner process_kursziele_from_excel (source lines 110-171):
read the sheet (a missing file, or a missing url column, is caught by the
handlers: empty result), clean the url column, run the per-row loop, and
concatenate the rows of all collected tables in collection order; the
second component is the number of pauses taken. -/
def runBatch (fetch : String → Option (List RawTable)) (input : ExcelInput)
    (urlCol : String) : List (List (String × Val)) × Nat :=
  match input with
  | ExcelInput.missing => ([], 0)
  | ExcelInput.sheet cols rows =>
    match colIdx cols urlCol with
    | none => ([], 0)
    | some i =>
      let cleaned := cleanRows i (rows.map (padVals cols.length))
      let c := collect fetch cols urlCol i cleaned
      ((c.1.map tableRows).flatten, c.2)

/-- The Result Table returned by the batch runner. -/
def process_kursziele_from_excel (fetch : String → Option (List RawTable))
    (input : ExcelInput) (urlCol : String) : List (List (String × Val)) :=
  (runBatch fetch input urlCol).1

/-- The output rows contributed by one cleaned input row. -/
def extractedRows (fetch : String → Option (List RawTable)) (cols : List String)
    (urlCol : String) (i : Nat) (r : List Val) : List (List (String × Val)) :=
  match rowStep fetch cols urlCol i r with
  | some t => tableRows t
  | none => []

/-! Claims C3 and C4: the table selector. -/

/-- Tables whose header text does not mention the keyword are passed over
by the scan. -/
theorem scanTables_append_skip (pre ts : List RawTable)
    (hpre : ∀ u ∈ pre, hasKursziel u = false) :
    scanTables (pre ++ ts) = scanTables ts := by
  induction pre with
  | nil => rfl
  | cons u pre ih =>
    have hu : hasKursziel u = false := hpre u (List.mem_cons_self u pre)
    have hrest : ∀ v ∈ pre, hasKursziel v = false :=
      fun v hv => hpre v (List.mem_cons_of_mem u hv)
    simp only [List.cons_append, scanTables, hu, Bool.false_eq_true, if_false]
    exact ih hrest

/-- A scan over keyword-free tables exhausts the list. -/
theorem scanTables_exhausted (ts : List RawTable)
    (h : ∀ u ∈ ts, hasKursziel u = false) :
    scanTables ts = ScanResult.exhausted := by
  have := scanTables_append_skip ts [] h
  simpa using this

/-- Concrete table whose first (and only header-bearing) row consists of
plain data cells mentioning the keyword: the selector's header scan
matches it, but the parsed table has no named columns. -/
def tdKurszielTable : RawTable :=
  ⟨none, false, [[some "Kursziel"], [some "55,5"]]⟩

/-- C3, counterexample: as universally stated the claim is false on the
code. This page's only table carries the keyword in its header list
(taken from the first row), yet the selector returns nothing: the parsed
table has no named columns (a plain td first row is data to the parser),
the column-name strip raises, and the outer handler swallows the page. -/
theorem get_kursziele_table_unnamed_header_counterexample :
    hasKursziel tdKurszielTable = true
    ∧ get_kursziele_table [tdKurszielTable] = none := by
  exact ⟨by decide, by decide⟩

/-- C3 (amended): provided the first keyword-matching table parses with
named columns (df) and j is the position of the first parsed column name
containing the keyword, the selector returns exactly that table, in page
order before any later tables, with normalization applied to exactly
column j of every data row. -/
theorem get_kursziele_table_first_match (pre post : List RawTable)
    (t : RawTable) (df : ParsedTable) (j : Nat)
    (hpre : ∀ u ∈ pre, hasKursziel u = false)
    (ht : hasKursziel t = true)
    (hdf : readTable t = some df)
    (hj : kwIdx df.headers = some j) :
    get_kursziele_table (pre ++ t :: post) = some (normalizeAt j df) := by
  have hscan : scanTables (pre ++ t :: post) = ScanResult.found (normalizeAt j df) := by
    rw [scanTables_append_skip pre (t :: post) hpre]
    simp only [scanTables, ht, if_true, hdf, hj]
  have hne : (pre ++ t :: post).isEmpty = false := by
    simp [List.isEmpty_iff]
  unfold get_kursziele_table
  rw [hne, hscan]
  simp

/-- Concrete table with an explicit header section, taken from the spec's
end-to-end example. -/
def thKurszielTable : RawTable :=
  ⟨some ["Institut", "Kursziel", "Datum"], false,
    [[some "Bank A", some "123,50", some "2024-01-01"]]⟩

/-- C3, witness: the amended claim applied to the spec's end-to-end
example table; column 1 (Kursziel) is matched and normalized. -/
theorem get_kursziele_table_first_match_witness :
    get_kursziele_table ([] ++ thKurszielTable :: []) =
      some (normalizeAt 1 ⟨["Institut", "Kursziel", "Datum"],
        [[some "Bank A", some "123,50", some "2024-01-01"]]⟩) :=
  get_kursziele_table_first_match [] [] thKurszielTable _ 1
    (by decide) (by decide) (by decide) (by decide)

/-- Concrete table with no rows at all (an empty table element). -/
def emptyTable : RawTable := ⟨none, false, []⟩

/-- C4, counterexample: as stated the claim is false on the code. This
page's table list is non-empty and no table's header contains the
keyword, yet the selector returns nothing rather than the first table:
parsing the empty first table raises inside the fallback's handler. -/
theorem get_kursziele_table_unparseable_fallback_counterexample :
    [emptyTable] ≠ []
    ∧ (∀ u ∈ [emptyTable], hasKursziel u = false)
    ∧ get_kursziele_table [emptyTable] = none := by
  exact ⟨by decide, by decide, by decide⟩

/-- C4 (amended): on an empty table list the selector returns nothing;
on a non-empty list with no keyword match it returns the first table with
no matched column and all columns left as their parsed raw values,
provided that first table parses with named columns, and returns nothing
when it does not parse. -/
theorem get_kursziele_table_fallback (t : RawTable) (ts : List RawTable)
    (hall : ∀ u ∈ t :: ts, hasKursziel u = false) :
    get_kursziele_table [] = none
    ∧ get_kursziele_table (t :: ts) = (readTable t).map rawOut := by
  constructor
  · rfl
  · have hscan : scanTables (t :: ts) = ScanResult.exhausted :=
      scanTables_exhausted (t :: ts) hall
    unfold get_kursziele_table
    rw [hscan]
    cases h : readTable t <;> simp [h]

/-- Concrete keyword-free table with an explicit header section. -/
def noKwTable : RawTable :=
  ⟨some ["Institut", "Datum"], false, [[some "Bank A", some "2024"]]⟩

/-- C4, witness: the amended claim's fallback applied to a concrete
keyword-free page; its single table is returned raw. -/
theorem get_kursziele_table_fallback_witness :
    get_kursziele_table [noKwTable] = (readTable noKwTable).map rawOut :=
  (get_kursziele_table_fallback noKwTable [] (by decide)).2

/-! Claims C5, C7 and C9: the batch runner. -/

/-- The collection loop is the in-order filtering of the successful rows,
and the pause count is the number of successes. -/
theorem collect_go (fetch : String → Option (List RawTable)) (cols : List String)
    (urlCol : String) (i : Nat) (rows : List (List Val)) :
    ∀ acc : List OutTable × Nat,
      rows.foldl
        (fun acc r =>
          match rowStep fetch cols urlCol i r with
          | some t => (acc.1 ++ [t], acc.2 + 1)
          | none => acc)
        acc
      = (acc.1 ++ rows.filterMap (rowStep fetch cols urlCol i),
         acc.2 + (rows.filterMap (rowStep fetch cols urlCol i)).length) := by
  induction rows with
  | nil => intro acc; simp
  | cons r rs ih =>
    intro acc
    rw [List.foldl_cons, List.filterMap_cons]
    cases h : rowStep fetch cols urlCol i r with
    | none =>
      simp only [h]
      rw [ih]
    | some t =>
      simp only [h]
      rw [ih]
      simp only [Prod.mk.injEq, List.append_assoc, List.singleton_append, List.length_cons]
      exact ⟨trivial, by omega⟩

theorem collect_eq (fetch : String → Option (List RawTable)) (cols : List String)
    (urlCol : String) (i : Nat) (rows : List (List Val)) :
    collect fetch cols urlCol i rows
      = (rows.filterMap (rowStep fetch cols urlCol i),
         (rows.filterMap (rowStep fetch cols urlCol i)).length) := by
  have h := collect_go fetch cols urlCol i rows ([], 0)
  simpa [collect] using h

/-- The frame-level cleaning acts row by row. -/
theorem cleanRows_eq_filterMap (i : Nat) (rows : List (List Val)) :
    cleanRows i rows = rows.filterMap (rowClean i) := by
  induction rows with
  | nil => rfl
  | cons r rs ih =>
    unfold cleanRows at ih ⊢
    rw [List.filterMap_cons]
    by_cases h1 : cellVal r i = Val.na
    · simp only [List.filter_cons, h1, rowClean, if_pos rfl]
      simpa [h1] using ih
    · by_cases h2 :
        cellVal (r.set i (Val.str (pyStrip (pyStr (cellVal r i))))) i = Val.str ""
      · simp only [rowClean, if_neg h1, h2, if_pos rfl]
        simp only [List.filter_cons, bne_iff_ne, ne_eq, h1, not_false_eq_true, if_pos,
          List.map_cons, h2]
        simpa using ih
      · simp only [rowClean, if_neg h1, if_neg h2]
        simp only [List.filter_cons, bne_iff_ne, ne_eq, h1, not_false_eq_true, if_pos,
          List.map_cons]
        rw [if_pos h2, ih]

/-- Flattening the per-success tables equals flattening the per-row
contributions. -/
theorem flatten_filterMap_rowStep (fetch : String → Option (List RawTable))
    (cols : List String) (urlCol : String) (i : Nat) (rows : List (List Val)) :
    ((rows.filterMap (rowStep fetch cols urlCol i)).map tableRows).flatten
      = (rows.map (extractedRows fetch cols urlCol i)).flatten := by
  induction rows with
  | nil => rfl
  | cons r rs ih =>
    rw [List.filterMap_cons, List.map_cons, List.flatten_cons]
    cases h : rowStep fetch cols urlCol i r with
    | none => rw [ih]; simp [extractedRows, h]
    | some t =>
      rw [List.map_cons, List.flatten_cons, ih]
      simp [extractedRows, h]

/-- C5: for a batch of input rows, the Result Table is exactly the
concatenation of the output-row sets of the successfully processed
cleaned rows, in original row order; when every row fails, the Result
Table is empty, as a value rather than an error. -/
theorem process_kursziele_concat (fetch : String → Option (List RawTable))
    (cols : List String) (rows : List (List Val)) (urlCol : String) (i : Nat)
    (hi : colIdx cols urlCol = some i) :
    process_kursziele_from_excel fetch (ExcelInput.sheet cols rows) urlCol
      = ((cleanRows i (rows.map (padVals cols.length))).map
          (extractedRows fetch cols urlCol i)).flatten
    ∧ ((∀ r ∈ cleanRows i (rows.map (padVals cols.length)),
          rowStep fetch cols urlCol i r = none) →
        process_kursziele_from_excel fetch (ExcelInput.sheet cols rows) urlCol = []) := by
  have hmain :
      process_kursziele_from_excel fetch (ExcelInput.sheet cols rows) urlCol
        = ((cleanRows i (rows.map (padVals cols.length))).map
            (extractedRows fetch cols urlCol i)).flatten := by
    simp only [process_kursziele_from_excel, runBatch, hi, collect_eq]
    exact flatten_filterMap_rowStep fetch cols urlCol i _
  refine ⟨hmain, ?_⟩
  intro hall
  rw [hmain]
  have : ∀ r ∈ cleanRows i (rows.map (padVals cols.length)),
      extractedRows fetch cols urlCol i r = [] := by
    intro r hr
    unfold extractedRows
    rw [hall r hr]
  rw [List.flatten_eq_nil_iff]
  intro l hl
  rcases List.mem_map.mp hl with ⟨r, hr, rfl⟩
  exact this r hr

/-- A fetch function that always fails. -/
def fetchNone : String → Option (List RawTable) := fun _ => none

/-- C5, witness: the concatenation form applied to a concrete one-row
batch whose fetch fails. -/
theorem process_kursziele_concat_witness :
    process_kursziele_from_excel fetchNone
        (ExcelInput.sheet ["Url"] [[Val.str "u"]]) "Url"
      = ((cleanRows 0 ([[Val.str "u"]].map (padVals 1))).map
          (extractedRows fetchNone ["Url"] "Url" 0)).flatten :=
  (process_kursziele_concat fetchNone ["Url"] [[Val.str "u"]] "Url" 0 (by decide)).1

/-- C7: a missing input file aborts the batch with an empty Result Table
and without raising; and a failing row (its fetch, extraction or
normalization coming up empty) is skipped without affecting the rows
around it: deleting it from the batch leaves the Result Table unchanged. -/
theorem process_error_isolation (fetch : String → Option (List RawTable))
    (urlCol : String) :
    process_kursziele_from_excel fetch ExcelInput.missing urlCol = []
    ∧ (∀ (cols : List String) (pre post : List (List Val)) (r : List Val) (i : Nat),
        colIdx cols urlCol = some i →
        (∀ r2, rowClean i (padVals cols.length r) = some r2 →
          rowStep fetch cols urlCol i r2 = none) →
        process_kursziele_from_excel fetch
            (ExcelInput.sheet cols (pre ++ r :: post)) urlCol
          = process_kursziele_from_excel fetch
              (ExcelInput.sheet cols (pre ++ post)) urlCol) := by
  constructor
  · rfl
  · intro cols pre post r i hi hfail
    simp only [process_kursziele_from_excel, runBatch, hi, collect_eq,
      cleanRows_eq_filterMap, List.map_append, List.map_cons,
      List.filterMap_append, List.filterMap_cons]
    cases hc : rowClean i (padVals cols.length r) with
    | none => simp [hc]
    | some r2 => simp [hc, hfail r2 hc]

/-- C7, witness: removing a concrete fetch-failing row from a one-row
batch leaves the (empty) Result Table unchanged. -/
theorem process_error_isolation_witness :
    process_kursziele_from_excel fetchNone
        (ExcelInput.sheet ["Url"] ([] ++ [Val.str "u"] :: [])) "Url"
      = process_kursziele_from_excel fetchNone
          (ExcelInput.sheet ["Url"] ([] ++ [])) "Url" :=
  (process_error_isolation fetchNone "Url").2 ["Url"] [] [] [Val.str "u"] 0
    (by decide)
    (fun r2 h => by
      have h2 : rowClean 0 (padVals (["Url"] : List String).length [Val.str "u"])
          = some [Val.str "u"] := by decide
      rw [h2] at h
      cases h
      decide)

/-- C9: a row whose page yields a table with zero data rows behaves
exactly like a row whose fetch fails: it contributes no table, no output
rows and no pause, and deleting it from the loop changes neither the
collected tables nor the pause count. -/
theorem empty_table_row_like_failed_fetch (fetch : String → Option (List RawTable))
    (cols : List String) (urlCol : String) (i : Nat) (r : List Val) (t : OutTable)
    (h1 : get_kursziele_table_url fetch (urlOf i r) = some t)
    (h2 : t.rows = []) :
    rowStep fetch cols urlCol i r = none
    ∧ (∀ r2 : List Val, get_kursziele_table_url fetch (urlOf i r2) = none →
        rowStep fetch cols urlCol i r2 = none)
    ∧ (∀ rs1 rs2 : List (List Val),
        collect fetch cols urlCol i (rs1 ++ r :: rs2)
          = collect fetch cols urlCol i (rs1 ++ rs2)) := by
  have hstep : rowStep fetch cols urlCol i r = none := by
    simp only [rowStep, h1, h2]
    simp
  refine ⟨hstep, ?_, ?_⟩
  · intro r2 hr2
    unfold rowStep
    rw [hr2]
  · intro rs1 rs2
    rw [collect_eq, collect_eq, List.filterMap_append, List.filterMap_append,
      List.filterMap_cons, hstep]

/-- A fetch whose every page holds one keyword table with no data rows. -/
def emptyKurszielFetch : String → Option (List RawTable) :=
  fun _ => some [⟨some ["Kursziel"], false, []⟩]

/-- C9, witness: a concrete row whose selected table has zero data rows
contributes nothing. -/
theorem empty_table_row_like_failed_fetch_witness :
    rowStep emptyKurszielFetch ["Url"] "Url" 0 [Val.str "u"] = none :=
  (empty_table_row_like_failed_fetch emptyKurszielFetch ["Url"] "Url" 0
    [Val.str "u"] ⟨["Kursziel"], []⟩ (by decide) rfl).1

/-! Claims C6 and C10: row augmentation and the collision policy. -/

/-- Every data row has exactly one cell per column. -/
def Uniform (t : OutTable) : Prop :=
  ∀ r ∈ t.rows, r.length = t.headers.length

theorem padRow_length (n : Nat) (r : List Cell) : (padRow n r).length = n := by
  simp only [padRow, List.length_append, List.length_take, List.length_replicate]
  omega

/-- Parsed tables have one cell per column in every data row. -/
theorem uniform_readTable (t : RawTable) (df : ParsedTable)
    (h : readTable t = some df) :
    ∀ r ∈ df.rows, r.length = df.headers.length := by
  unfold readTable at h
  rcases ht : t.thead with _ | hs
  · rw [ht] at h
    by_cases hth : t.firstRowTh = true
    · rw [if_pos hth] at h
      rcases hb : t.body with _ | ⟨r0, rs⟩
      · rw [hb] at h; cases h
      · rw [hb] at h
        cases h
        intro r hr
        rcases List.mem_map.mp hr with ⟨r2, _, rfl⟩
        simp [padRow_length]
    · rw [if_neg hth] at h; cases h
  · rw [ht] at h
    cases h
    intro r hr
    rcases List.mem_map.mp hr with ⟨r2, _, rfl⟩
    simp [padRow_length]

theorem uniform_normalizeAt (j : Nat) (df : ParsedTable)
    (h : ∀ r ∈ df.rows, r.length = df.headers.length) :
    Uniform (normalizeAt j df) := by
  intro r hr
  unfold normalizeAt at hr
  rcases List.mem_map.mp hr with ⟨r2, hr2, rfl⟩
  simpa using h r2 hr2

theorem uniform_rawOut (df : ParsedTable)
    (h : ∀ r ∈ df.rows, r.length = df.headers.length) :
    Uniform (rawOut df) := by
  intro r hr
  unfold rawOut at hr
  rcases List.mem_map.mp hr with ⟨r2, hr2, rfl⟩
  simpa using h r2 hr2

theorem uniform_scanTables (tables : List RawTable) (o : OutTable)
    (h : scanTables tables = ScanResult.found o) : Uniform o := by
  induction tables with
  | nil => cases h
  | cons t ts ih =>
    rw [scanTables] at h
    cases hk : hasKursziel t with
    | false => rw [hk] at h; simp only [Bool.false_eq_true, if_false] at h; exact ih h
    | true =>
      rw [hk] at h
      simp only [if_true] at h
      cases hrt : readTable t with
      | none => rw [hrt] at h; cases h
      | some df =>
        simp only [hrt] at h
        cases hkw : kwIdx df.headers with
        | none => simp only [hkw] at h; exact ih h
        | some j =>
          simp only [hkw] at h
          cases h
          exact uniform_normalizeAt j df (uniform_readTable t df hrt)

theorem uniform_get_kursziele_table (tables : List RawTable) (o : OutTable)
    (h : get_kursziele_table tables = some o) : Uniform o := by
  unfold get_kursziele_table at h
  cases hie : tables.isEmpty with
  | true => rw [hie] at h; simp at h
  | false =>
    rw [hie] at h
    simp only [Bool.false_eq_true, if_false] at h
    cases hs : scanTables tables with
    | found df =>
      rw [hs] at h
      cases h
      exact uniform_scanTables tables o hs
    | error => rw [hs] at h; cases h
    | exhausted =>
      rw [hs] at h
      cases tables with
      | nil => cases h
      | cons t ts =>
        cases hrt : readTable t with
        | none => simp only [hrt] at h; exact Option.noConfusion h
        | some df =>
          simp only [hrt] at h
          cases h
          exact uniform_rawOut df (uniform_readTable t df hrt)

theorem uniform_get_url (fetch : String → Option (List RawTable)) (url : String)
    (o : OutTable) (h : get_kursziele_table_url fetch url = some o) : Uniform o := by
  unfold get_kursziele_table_url at h
  cases hf : fetch url with
  | none => rw [hf] at h; cases h
  | some tables => rw [hf] at h; exact uniform_get_kursziele_table tables o h

/-- The effect of a column assignment on one output row viewed as an
ordered mapping: overwrite the value of every pair keyed by the column
name when the key occurs, else append the new field at the right. -/
def setField (c : String) (v : Val) (ar : List (String × Val)) : List (String × Val) :=
  if c ∈ ar.map Prod.fst then ar.map (fun p => if p.1 = c then (p.1, v) else p)
  else ar ++ [(c, v)]

theorem uniform_setCol (t : OutTable) (c : String) (v : Val) (hU : Uniform t) :
    Uniform (setCol t c v) := by
  unfold setCol
  by_cases hc : c ∈ t.headers
  · rw [if_pos hc]
    intro r hr
    rcases List.mem_map.mp hr with ⟨r2, hr2, rfl⟩
    simpa using hU r2 hr2
  · rw [if_neg hc]
    intro r hr
    rcases List.mem_map.mp hr with ⟨r2, hr2, rfl⟩
    simp [hU r2 hr2]

theorem zip_mapIdx_set (c : String) (v : Val) :
    ∀ (hs : List String) (r : List Val), r.length = hs.length →
      hs.zip (r.mapIdx (fun i x => if hs[i]? = some c then v else x))
        = (hs.zip r).map (fun p => if p.1 = c then (p.1, v) else p) := by
  intro hs
  induction hs with
  | nil =>
    intro r hr
    have hrn : r = [] := by simpa using hr
    subst hrn
    rfl
  | cons h0 hs ih =>
    intro r hr
    cases r with
    | nil => simp at hr
    | cons x r2 =>
      rw [List.mapIdx_cons]
      simp only [List.getElem?_cons_zero, List.getElem?_cons_succ, List.zip_cons_cons,
        List.map_cons]
      congr 1
      · by_cases hh : h0 = c
        · simp [hh]
        · simp [hh]
      · exact ih r2 (by simpa using hr)

theorem tableRows_setCol (t : OutTable) (c : String) (v : Val) (hU : Uniform t) :
    tableRows (setCol t c v) = (tableRows t).map (setField c v) := by
  unfold setCol tableRows
  by_cases hc : c ∈ t.headers
  · rw [if_pos hc]
    simp only [List.map_map]
    refine List.map_congr_left ?_
    intro r hr
    have hlen := hU r hr
    show t.headers.zip (r.mapIdx fun i x => if t.headers[i]? = some c then v else x)
      = setField c v (t.headers.zip r)
    rw [zip_mapIdx_set c v t.headers r hlen]
    unfold setField
    rw [List.map_fst_zip _ _ (le_of_eq hlen.symm), if_pos hc]
  · rw [if_neg hc]
    simp only [List.map_map]
    refine List.map_congr_left ?_
    intro r hr
    have hlen := hU r hr
    show (t.headers ++ [c]).zip (r ++ [v]) = setField c v (t.headers.zip r)
    rw [List.zip_append hlen.symm]
    unfold setField
    rw [List.map_fst_zip _ _ (le_of_eq hlen.symm), if_neg hc]
    rfl

theorem lookup_map_overwrite (c : String) (v : Val) :
    ∀ ar : List (String × Val), c ∈ ar.map Prod.fst →
      (ar.map (fun p => if p.1 = c then (p.1, v) else p)).lookup c = some v := by
  intro ar
  induction ar with
  | nil => intro h; simp at h
  | cons p ar ih =>
    rcases p with ⟨k, b⟩
    intro h
    by_cases hk : k = c
    · subst hk
      simp [List.lookup_cons]
    · have hbe : (c == k) = false := beq_eq_false_iff_ne.mpr (fun hh => hk hh.symm)
      have hm : c ∈ ar.map Prod.fst := by
        rw [List.map_cons] at h
        rcases List.mem_cons.mp h with h1 | h1
        · exact absurd h1.symm hk
        · exact h1
      simp only [List.map_cons, if_neg hk]
      rw [List.lookup_cons]
      simp only [hbe]
      exact ih hm

theorem lookup_append_new (c : String) (v : Val) :
    ∀ ar : List (String × Val), c ∉ ar.map Prod.fst →
      (ar ++ [(c, v)]).lookup c = some v := by
  intro ar
  induction ar with
  | nil => intro _; simp [List.lookup_cons]
  | cons p ar ih =>
    rcases p with ⟨k, b⟩
    intro h
    have hk : c ≠ k := by
      intro hh
      exact h (by simp [hh])
    have hbe : (c == k) = false := beq_eq_false_iff_ne.mpr hk
    rw [List.cons_append, List.lookup_cons]
    simp only [hbe]
    exact ih (fun hm => h (by simpa using List.mem_cons_of_mem k hm))

/-- Assigning a column makes its looked-up value the assigned one. -/
theorem lookup_setField_same (c : String) (v : Val) (ar : List (String × Val)) :
    (setField c v ar).lookup c = some v := by
  unfold setField
  by_cases hc : c ∈ ar.map Prod.fst
  · rw [if_pos hc]
    exact lookup_map_overwrite c v ar hc
  · rw [if_neg hc]
    exact lookup_append_new c v ar hc

/-- Assigning a column leaves every other looked-up value unchanged. -/
theorem lookup_setField_other (c c2 : String) (hne : c2 ≠ c) (v : Val)
    (ar : List (String × Val)) :
    (setField c v ar).lookup c2 = ar.lookup c2 := by
  unfold setField
  by_cases hc : c ∈ ar.map Prod.fst
  · rw [if_pos hc]
    clear hc
    induction ar with
    | nil => rfl
    | cons p ar ih =>
      rcases p with ⟨k, b⟩
      by_cases hk : k = c
      · subst hk
        have hbe : (c2 == k) = false := beq_eq_false_iff_ne.mpr hne
        simp only [List.map_cons, List.lookup_cons, if_pos, hbe]
        exact ih
      · simp only [List.map_cons, if_neg hk, List.lookup_cons]
        cases hbe : c2 == k with
        | false => simp only [hbe]; exact ih
        | true => simp only [hbe]
  · rw [if_neg hc]
    clear hc
    induction ar with
    | nil =>
      have hbe : (c2 == c) = false := beq_eq_false_iff_ne.mpr hne
      simp [List.lookup_cons, hbe]
    | cons p ar ih =>
      rcases p with ⟨k, b⟩
      rw [List.cons_append, List.lookup_cons, List.lookup_cons]
      cases hbe : c2 == k with
      | false => simp only [hbe]; exact ih
      | true => simp only [hbe]

/-- Looking up a column after the copy loop over the input columns: a
copied column reads the input row's value, every other column is
untouched. -/
theorem lookup_foldl_setField (urlCol : String) (vf : String → Val) :
    ∀ (L : List String) (ar : List (String × Val)) (c0 : String),
      (L.foldl (fun ar c => if c = urlCol then ar else setField c (vf c) ar) ar).lookup c0
        = if c0 ∈ L ∧ c0 ≠ urlCol then some (vf c0) else ar.lookup c0 := by
  intro L
  induction L with
  | nil =>
    intro ar c0
    simp
  | cons c L ih =>
    intro ar c0
    rw [List.foldl_cons]
    by_cases hc : c = urlCol
    · rw [show (if c = urlCol then ar else setField c (vf c) ar) = ar from if_pos hc]
      rw [ih]
      by_cases hm : c0 ∈ L ∧ c0 ≠ urlCol
      · rw [if_pos hm, if_pos ⟨List.mem_cons_of_mem c hm.1, hm.2⟩]
      · rw [if_neg hm, if_neg ?_]
        rintro ⟨hmem, hne⟩
        rcases List.mem_cons.mp hmem with h1 | h1
        · exact hne (h1.trans hc)
        · exact hm ⟨h1, hne⟩
    · rw [show (if c = urlCol then ar else setField c (vf c) ar)
          = setField c (vf c) ar from if_neg hc]
      rw [ih]
      by_cases hm : c0 ∈ L ∧ c0 ≠ urlCol
      · rw [if_pos hm, if_pos ⟨List.mem_cons_of_mem c hm.1, hm.2⟩]
      · rw [if_neg hm]
        by_cases h0 : c0 = c
        · subst h0
          rw [lookup_setField_same, if_pos ⟨List.mem_cons_self c0 L, fun hh => hc (hh ▸ rfl)⟩]
        · rw [lookup_setField_other c c0 h0, if_neg ?_]
          rintro ⟨hmem, hne⟩
          rcases List.mem_cons.mp hmem with h1 | h1
          · exact h0 h1
          · exact hm ⟨h1, hne⟩

theorem uniform_foldl_setCol (urlCol : String) (vf : String → Val) :
    ∀ (L : List String) (t : OutTable), Uniform t →
      Uniform (L.foldl (fun acc c => if c = urlCol then acc else setCol acc c (vf c)) t) := by
  intro L
  induction L with
  | nil => intro t hU; exact hU
  | cons c L ih =>
    intro t hU
    rw [List.foldl_cons]
    by_cases hc : c = urlCol
    · rw [show (if c = urlCol then t else setCol t c (vf c)) = t from if_pos hc]
      exact ih t hU
    · rw [show (if c = urlCol then t else setCol t c (vf c))
          = setCol t c (vf c) from if_neg hc]
      exact ih _ (uniform_setCol t c (vf c) hU)

/-- The copy loop over the input columns, row by row: the augmented
table's rows are the original rows transformed by the corresponding
field assignments. -/
theorem tableRows_foldl_setCol (urlCol : String) (vf : String → Val) :
    ∀ (L : List String) (t : OutTable), Uniform t →
      tableRows (L.foldl (fun acc c => if c = urlCol then acc else setCol acc c (vf c)) t)
        = (tableRows t).map
            (fun ar => L.foldl
              (fun ar c => if c = urlCol then ar else setField c (vf c) ar) ar) := by
  intro L
  induction L with
  | nil =>
    intro t hU
    simp
  | cons c L ih =>
    intro t hU
    rw [List.foldl_cons]
    by_cases hc : c = urlCol
    · rw [show (if c = urlCol then t else setCol t c (vf c)) = t from if_pos hc]
      rw [ih t hU]
      refine List.map_congr_left ?_
      intro ar _
      rw [List.foldl_cons,
        show (if c = urlCol then ar else setField c (vf c) ar) = ar from if_pos hc]
    · rw [show (if c = urlCol then t else setCol t c (vf c))
          = setCol t c (vf c) from if_neg hc]
      rw [ih _ (uniform_setCol t c (vf c) hU)]
      rw [tableRows_setCol t c (vf c) hU, List.map_map]
      refine List.map_congr_left ?_
      intro ar _
      rw [Function.comp_apply, List.foldl_cons,
        show (if c = urlCol then ar else setField c (vf c) ar)
          = setField c (vf c) ar from if_neg hc]

/-- The per-row augmentation, row by row: tag with Source_URL, then copy
the non-address input columns, as field assignments on each output row. -/
theorem tableRows_augment (cols : List String) (urlCol : String) (row : List Val)
    (url : String) (t : OutTable) (hU : Uniform t) :
    tableRows (augmentTable cols urlCol row url t)
      = (tableRows t).map
          (fun ar => cols.foldl
            (fun ar c => if c = urlCol then ar else setField c (rowVal cols row c) ar)
            (setField "Source_URL" (Val.str url) ar)) := by
  unfold augmentTable
  rw [tableRows_foldl_setCol urlCol (fun c => rowVal cols row c) cols
    (setCol t "Source_URL" (Val.str url)) (uniform_setCol t _ _ hU)]
  rw [tableRows_setCol t "Source_URL" (Val.str url) hU, List.map_map]
  rfl

/-- A fetch whose every page holds the example table. -/
def exampleFetch : String → Option (List RawTable) :=
  fun _ => some [thKurszielTable]

/-- C6, counterexample: as stated the claim is false on the code. For an
input sheet whose non-address columns include one named Source_URL, the
copy loop overwrites the Source_URL tag, so the output row's Source_URL
field equals the input column's value, not the fetched address (here
"other" instead of the address "u"). -/
theorem process_source_url_override_counterexample :
    (process_kursziele_from_excel exampleFetch
        (ExcelInput.sheet ["Url", "Source_URL"] [[Val.str "u", Val.str "other"]])
        "Url").map (fun orow => orow.lookup "Source_URL")
      = [some (Val.str "other")]
    ∧ Val.str "other" ≠ Val.str "u" := by
  exact ⟨by decide, by decide⟩

/-- C6 (amended): provided no non-address input column is named
Source_URL, every output row produced from a processed input row carries
a Source_URL field equal to that row's (cleaned) address and a copy of
every non-address column of that input row. -/
theorem process_source_url_traceability (fetch : String → Option (List RawTable))
    (cols : List String) (rows : List (List Val)) (urlCol : String) (i : Nat)
    (_hi : colIdx cols urlCol = some i)
    (hsu : ∀ c ∈ cols, c ≠ urlCol → c ≠ "Source_URL")
    (r : List Val) (_hr : r ∈ cleanRows i (rows.map (padVals cols.length)))
    (orow : List (String × Val))
    (ho : orow ∈ extractedRows fetch cols urlCol i r) :
    orow.lookup "Source_URL" = some (Val.str (urlOf i r))
    ∧ ∀ c ∈ cols, c ≠ urlCol → orow.lookup c = some (rowVal cols r c) := by
  have hema : ∃ t0, get_kursziele_table_url fetch (urlOf i r) = some t0
      ∧ orow ∈ tableRows (augmentTable cols urlCol r (urlOf i r) t0) := by
    unfold extractedRows at ho
    cases hrs : rowStep fetch cols urlCol i r with
    | none => rw [hrs] at ho; simp at ho
    | some tt =>
      rw [hrs] at ho
      unfold rowStep at hrs
      cases hg : get_kursziele_table_url fetch (urlOf i r) with
      | none => rw [hg] at hrs; cases hrs
      | some t0 =>
        simp only [hg] at hrs
        by_cases hlen : 0 < t0.rows.length
        · rw [if_pos hlen] at hrs
          cases hrs
          exact ⟨t0, rfl, ho⟩
        · rw [if_neg hlen] at hrs; cases hrs
  obtain ⟨t0, hg, ho2⟩ := hema
  have hU : Uniform t0 := uniform_get_url fetch _ t0 hg
  rw [tableRows_augment cols urlCol r (urlOf i r) t0 hU] at ho2
  rcases List.mem_map.mp ho2 with ⟨ar, _, rfl⟩
  constructor
  · have hcond : ¬("Source_URL" ∈ cols ∧ "Source_URL" ≠ urlCol) := by
      rintro ⟨hmem, hne⟩
      exact hsu "Source_URL" hmem hne rfl
    rw [lookup_foldl_setField, if_neg hcond, lookup_setField_same]
  · intro c hcm hcu
    rw [lookup_foldl_setField, if_pos ⟨hcm, hcu⟩]

/-- C6, witness: a concrete batch with a pass-through WKN column; the
produced output row's Source_URL field is the row's address. -/
theorem process_source_url_traceability_witness :
    ([("Institut", Val.str "Bank A"), ("Kursziel", Val.num (mkRat 1235 10)),
      ("Datum", Val.str "2024-01-01"), ("Source_URL", Val.str "u1"),
      ("WKN", Val.str "703000")] : List (String × Val)).lookup "Source_URL"
      = some (Val.str (urlOf 0 [Val.str "u1", Val.str "703000"])) :=
  (process_source_url_traceability exampleFetch ["Url", "WKN"]
    [[Val.str "u1", Val.str "703000"]] "Url" 0 (by decide) (by decide)
    [Val.str "u1", Val.str "703000"] (by decide)
    [("Institut", Val.str "Bank A"), ("Kursziel", Val.num (mkRat 1235 10)),
     ("Datum", Val.str "2024-01-01"), ("Source_URL", Val.str "u1"),
     ("WKN", Val.str "703000")] (by decide)).1

/-- C10: copying the input columns overwrites every same-named column of
the augmented table (the Source_URL tag included) with the input row's
single value, in every output row; every column whose name is neither
Source_URL nor a copied input column keeps its value from the extracted
table. -/
theorem augment_collision_override (cols : List String) (urlCol : String)
    (row : List Val) (url : String) (t : OutTable)
    (hU : ∀ r ∈ t.rows, r.length = t.headers.length) :
    (tableRows (augmentTable cols urlCol row url t)).length = (tableRows t).length
    ∧ (∀ (k : Nat) (ar ar2 : List (String × Val)),
        (tableRows t)[k]? = some ar →
        (tableRows (augmentTable cols urlCol row url t))[k]? = some ar2 →
        (∀ c ∈ cols, c ≠ urlCol → ar2.lookup c = some (rowVal cols row c))
        ∧ (∀ h3, h3 ≠ "Source_URL" → (h3 ∈ cols → h3 = urlCol) →
            ar2.lookup h3 = ar.lookup h3)) := by
  have hmap := tableRows_augment cols urlCol row url t hU
  constructor
  · rw [hmap, List.length_map]
  · intro k ar ar2 h1 h2
    rw [hmap, List.getElem?_map, h1] at h2
    simp only [Option.map_some'] at h2
    cases h2
    constructor
    · intro c hcm hcu
      rw [lookup_foldl_setField, if_pos ⟨hcm, hcu⟩]
    · intro h3 hne hcol
      have hcond : ¬(h3 ∈ cols ∧ h3 ≠ urlCol) := by
        rintro ⟨hm, hu⟩
        exact hu (hcol hm)
      rw [lookup_foldl_setField, if_neg hcond,
        lookup_setField_other "Source_URL" h3 hne]

/-- C10, witness: the override characterization applied to a concrete
extracted table with a colliding WKN column. -/
theorem augment_collision_override_witness :
    (tableRows (augmentTable ["Url", "WKN"] "Url" [Val.str "u", Val.str "703000"] "u"
        ⟨["Kursziel", "WKN"], [[Val.num (mkRat 5 1), Val.str "x"]]⟩)).length
      = (tableRows (⟨["Kursziel", "WKN"],
          [[Val.num (mkRat 5 1), Val.str "x"]]⟩ : OutTable)).length :=
  (augment_collision_override ["Url", "WKN"] "Url" [Val.str "u", Val.str "703000"] "u"
    ⟨["Kursziel", "WKN"], [[Val.num (mkRat 5 1), Val.str "x"]]⟩ (by decide)).1

end Aktien
